import Mathlib

/-!
Shallow embedding of the `MinesGame` Solidity contract
(`src/contracts/contracts/MinesGame.sol`, compiled with solc ^0.8.19, i.e.
checked arithmetic: any overflowing or underflowing operation reverts).

Modelling conventions:
* `uint256` / `uint8` values are `Nat`; wherever the contract performs an
  operation whose checked result could leave the machine range — the
  subtractions in `cashOut`, the `uint8` subtraction and multiplication in
  `calculateWinnings` (width 8, bound 255) and the `uint256` multiplication
  there (bound `2 ^ 256`) — we test the bound explicitly and revert
  (`Except.error`) instead of producing a wrapped value, matching the
  checked-arithmetic semantics of Solidity 0.8. Additions into `uint256`
  (pool and counter updates) stay unbounded: their operands are bounded by
  real balances and a 25-tile board, so the 256-bit bound is unreachable
  there.
* The contract keeps one `Game` record per caller plus one global
  `sharedPoolBalance`. Every mutating entry point operates on the caller's
  own record only, so the state is modelled as that single record together
  with the pool (`MState`).
* `require(cond, msg)` failing, and arithmetic panics, are `Except.error msg`:
  the whole call reverts with no state change.
* `keccak256(abi.encodePacked(block.timestamp, msg.sender, i))` is a value
  that is fixed for the duration of one call once `i` is fixed
  (`block.timestamp` and `msg.sender` cannot change inside a call), so the
  hash is abstracted as a function `h : Nat → Nat` of the slot counter `i`
  alone; the drawn tile is `h i % 25` exactly as in the source.
* The `do … while` rejection-sampling loop in `startGame` has no bound in
  the source; it is modelled with explicit fuel, `none` meaning the loop has
  not terminated within the given number of iterations. A result that is
  `none` for every fuel is a non-terminating execution.
-/

/-- The `Game` struct of the contract. `revealedTiles` is the
`bool[](25)` array, `mineLocations` the `uint8[](numberOfMines)` array. -/
structure Game where
  player : Nat
  betAmount : Nat
  totalMines : Nat
  revealedSafeTiles : Nat
  revealedTiles : List Bool
  mineLocations : List Nat
  isActive : Bool
deriving Repr, DecidableEq

/-- Contract storage relevant to one caller: that caller's game record
(`games[msg.sender]`; a never-started game is the all-zero record) and the
global `sharedPoolBalance`. -/
structure MState where
  game : Game
  pool : Nat
deriving Repr, DecidableEq

/-- The zero-initialized record Solidity returns for an address that has
never started a game: empty dynamic arrays, zero scalars, `isActive = false`. -/
def Game.initial : Game :=
  { player := 0, betAmount := 0, totalMines := 0, revealedSafeTiles := 0,
    revealedTiles := [], mineLocations := [], isActive := false }

/-- Function `calculateWinnings` of the contract: `0` when no safe tile is
revealed, otherwise `betAmount * multiplier / 100` with
`multiplier = (25 - totalMines) * revealedSafeTiles / 25`, the divisions
truncating (Solidity integer division = `Nat` division).

`totalMines` and `revealedSafeTiles` are `uint8` and the literal `25` in
`25 - totalMines` adopts `uint8`, so the subtraction and the multiplication
are 8-bit checked operations: the subtraction panics for `totalMines > 25`
and the multiplication panics whenever
`(25 - totalMines) * revealedSafeTiles > 255` — which is reachable in
normal play, e.g. 1 mine with 11 safe reveals gives `24 * 11 = 264`. The
8-bit quotient is then widened to `uint256` for `multiplier`, and
`betAmount * multiplier` is a 256-bit checked multiplication that panics at
`2 ^ 256`. The divisions have constant nonzero divisors and cannot panic. -/
def calculateWinnings (betAmount totalMines revealedSafeTiles : Nat) :
    Except String Nat :=
  if revealedSafeTiles = 0 then Except.ok 0
  else if 25 < totalMines then Except.error "panic: arithmetic underflow"
  else if 255 < (25 - totalMines) * revealedSafeTiles then
    Except.error "panic: arithmetic overflow"
  else
    let multiplier := (25 - totalMines) * revealedSafeTiles / 25
    if 2 ^ 256 ≤ betAmount * multiplier then
      Except.error "panic: arithmetic overflow"
    else Except.ok (betAmount * multiplier / 100)

/-- The inner `do … while (!locationValid)` loop of `startGame` for slot `i`:
each iteration recomputes `mineLocation = h i % 25` (the hash input
`(block.timestamp, msg.sender, i)` does not change between iterations) and
accepts it unless it already occurs among the previously chosen locations.
`fuel` bounds the number of iterations; `none` = not terminated yet. -/
def drawSlot (h : Nat → Nat) (i : Nat) (chosen : List Nat) : Nat → Option Nat
  | 0 => none
  | fuel + 1 =>
    let mineLocation := h i % 25
    if chosen.contains mineLocation then drawSlot h i chosen fuel
    else some mineLocation

/-- The outer `for (i = 0; i < numberOfMines; i++)` loop of `startGame`:
`acc` holds the locations already written to `mineLocations[0..i)` (so the
current slot index is `acc.length`), `k` the number of slots still to fill. -/
def placeMinesFrom (h : Nat → Nat) (fuel : Nat) : Nat → List Nat → Option (List Nat)
  | 0, acc => some acc
  | k + 1, acc =>
    match drawSlot h acc.length acc fuel with
    | none => none
    | some v => placeMinesFrom h fuel k (acc ++ [v])

/-- Mine placement of `startGame`: fill `m` slots starting from the empty
array, giving each slot's rejection loop at most `fuel` iterations. -/
def placeMines (h : Nat → Nat) (m fuel : Nat) : Option (List Nat) :=
  placeMinesFrom h fuel m []

/-- The mine-placement loop terminates (for some finite amount of fuel). -/
def PlacementTerminates (h : Nat → Nat) (m : Nat) : Prop :=
  ∃ fuel, (placeMines h m fuel).isSome

/-- Entry point `startGame(numberOfMines)` with `msg.value = stake` and
`msg.sender = sender`. Outer `none` means the call never finished (the
rejection-sampling loop exhausted its fuel); `some (Except.error msg)` is a
revert with reason `msg`; `some (Except.ok st)` the committed post-state. -/
def startGame (h : Nat → Nat) (fuel sender stake m : Nat) (st : MState) :
    Option (Except String MState) :=
  if stake = 0 then some (Except.error "Bet amount must be greater than 0")
  else if ¬ (1 ≤ m ∧ m ≤ 24) then
    some (Except.error "Mines must be between 1 and 24")
  else if st.game.isActive then
    some (Except.error "Player already has an active game")
  else
    match placeMines h m fuel with
    | none => none
    | some locs =>
      some (Except.ok
        { game :=
            { player := sender, betAmount := stake, totalMines := m,
              revealedSafeTiles := 0,
              revealedTiles := List.replicate 25 false,
              mineLocations := locs, isActive := true },
          pool := st.pool + stake })

/-- The mine-membership scan of `revealTile`:
`for (i = 0; i < totalMines; i++) if (mineLocations[i] == tileIndex)`.
For every state built by `startGame`, `mineLocations.length = totalMines`,
so the `take` is the identity there. -/
def isMineHit (locs : List Nat) (m t : Nat) : Bool :=
  (locs.take m).contains t

/-- Entry point `revealTile(tileIndex)`: three `require`s, then mark the tile and either
end the game (mine) or bump the safe counter (no mine). The pool is not
touched. -/
def revealTile (t : Nat) (st : MState) : Except String MState :=
  if ¬ t < 25 then Except.error "Invalid tile index"
  else if ¬ st.game.isActive then Except.error "No active game"
  else if st.game.revealedTiles.getD t false then
    Except.error "Tile already revealed"
  else
    let g := st.game
    let tiles := g.revealedTiles.set t true
    if isMineHit g.mineLocations g.totalMines t then
      Except.ok { st with game := { g with revealedTiles := tiles, isActive := false } }
    else
      Except.ok { st with game :=
        { g with revealedTiles := tiles,
                 revealedSafeTiles := g.revealedSafeTiles + 1 } }

/-- Entry point `cashOut()`. Returns the committed post-state together with the amount
transferred to the caller (`betAmount + winnings`). A panic inside
`calculateWinnings` reverts the whole call before the clamp. The clamp
`winnings = sharedPoolBalance - game.betAmount` and the pool decrement are
checked subtractions: if they would underflow the whole call reverts with a
Solidity 0.8 arithmetic panic. -/
def cashOut (st : MState) : Except String (MState × Nat) :=
  let g := st.game
  if ¬ g.isActive then Except.error "No active game"
  else if g.revealedSafeTiles = 0 then
    Except.error "Must reveal at least one safe tile"
  else match calculateWinnings g.betAmount g.totalMines g.revealedSafeTiles with
  | Except.error msg => Except.error msg
  | Except.ok winnings0 =>
    if winnings0 + g.betAmount > st.pool ∧ st.pool < g.betAmount then
      Except.error "panic: arithmetic underflow"
    else
      let winnings :=
        if winnings0 + g.betAmount > st.pool then st.pool - g.betAmount
        else winnings0
      if st.pool < g.betAmount + winnings then
        Except.error "panic: arithmetic underflow"
      else
        Except.ok
          ({ game := { g with isActive := false },
             pool := st.pool - (g.betAmount + winnings) },
           g.betAmount + winnings)

/-- Entry point `withdrawHouseFunds()` (the unrestricted pool drain): transfers the whole
`sharedPoolBalance` to whoever calls it and zeroes the pool. No `require`,
no access control; result is the post-state and the amount paid out. -/
def withdrawHouseFunds (st : MState) : MState × Nat :=
  ({ st with pool := 0 }, st.pool)

/-- Number of revealed safe tiles actually recorded in the flags: positions
`i` (counting from `i0`) whose flag is set and which are not mines. -/
def countSafeAux (mines : List Nat) : List Bool → Nat → Nat
  | [], _ => 0
  | b :: rest, i0 =>
    (if b && !(mines.contains i0) then 1 else 0) + countSafeAux mines rest (i0 + 1)

/-- Number of indices `i ∈ [0, 25)` with `revealedTiles[i] = true` and
`i ∉ mineLocations` (for the length-25 flag arrays the contract builds). -/
def countSafe (tiles : List Bool) (mines : List Nat) : Nat :=
  countSafeAux mines tiles 0

/-- The bookkeeping invariant of a game record: the stored counter matches
the number of safe set flags, the flag array has the fixed board size, and
the mine array is exactly the `totalMines` locations. -/
def GameInv (g : Game) : Prop :=
  g.revealedSafeTiles = countSafe g.revealedTiles g.mineLocations ∧
  g.revealedTiles.length = 25 ∧
  g.mineLocations.length = g.totalMines

/-! ### Helper lemmas about the mine-placement loop -/

/-- One unfolding step of the inner rejection loop. -/
theorem drawSlot_succ (h : Nat → Nat) (i : Nat) (chosen : List Nat) (fuel : Nat) :
    drawSlot h i chosen (fuel + 1)
      = if chosen.contains (h i % 25) then drawSlot h i chosen fuel
        else some (h i % 25) := rfl

/-- A successful inner loop always returns the (fixed) draw `h i % 25`,
and only when it does not collide with the already-chosen locations. -/
theorem drawSlot_some {h : Nat → Nat} {i : Nat} {chosen : List Nat} :
    ∀ {fuel v}, drawSlot h i chosen fuel = some v →
      v = h i % 25 ∧ v ∉ chosen := by
  intro fuel
  induction fuel with
  | zero => intro v hv; simp [drawSlot] at hv
  | succ f ih =>
    intro v hv
    rw [drawSlot_succ] at hv
    cases hc : chosen.contains (h i % 25) with
    | true => rw [hc] at hv; simp at hv; exact ih hv
    | false =>
      rw [hc] at hv
      simp at hv
      subst hv
      exact ⟨rfl, by simpa using hc⟩

/-- If the (fixed) draw for slot `i` collides with the chosen locations, the
inner loop never returns, whatever the fuel: every retry recomputes the same
hash of `(block.timestamp, msg.sender, i)`. -/
theorem drawSlot_none {h : Nat → Nat} {i : Nat} {chosen : List Nat}
    (hc : chosen.contains (h i % 25) = true) :
    ∀ fuel, drawSlot h i chosen fuel = none := by
  intro fuel
  induction fuel with
  | zero => rfl
  | succ f ih => rw [drawSlot_succ, hc, if_pos rfl]; exact ih

/-- Shape of a successful placement run: every accepted location is the
per-slot draw, so the result is `acc` followed by the draws of the remaining
slots in order. -/
theorem placeMinesFrom_shape {h : Nat → Nat} {fuel : Nat} :
    ∀ {k acc locs}, placeMinesFrom h fuel k acc = some locs →
      locs = acc ++ (List.range k).map (fun j => h (acc.length + j) % 25) := by
  intro k
  induction k with
  | zero => intro acc locs hrun; simp [placeMinesFrom] at hrun; simp [hrun.symm]
  | succ k ih =>
    intro acc locs hrun
    simp only [placeMinesFrom] at hrun
    cases hd : drawSlot h acc.length acc fuel with
    | none => rw [hd] at hrun; simp at hrun
    | some v =>
      rw [hd] at hrun
      simp only at hrun
      obtain ⟨hv, -⟩ := drawSlot_some hd
      have hlocs := ih hrun
      subst hv
      rw [hlocs, List.range_succ_eq_map]
      simp [List.append_assoc, Function.comp]
      intro a ha
      congr 2
      omega

/-- A successful placement run starting from a duplicate-free prefix of
in-range locations yields a duplicate-free list of in-range locations of the
expected length. -/
theorem placeMinesFrom_sound {h : Nat → Nat} {fuel : Nat} :
    ∀ {k acc locs}, placeMinesFrom h fuel k acc = some locs →
      acc.Nodup → (∀ x ∈ acc, x < 25) →
      locs.length = acc.length + k ∧ locs.Nodup ∧ ∀ x ∈ locs, x < 25 := by
  intro k
  induction k with
  | zero =>
    intro acc locs hrun hnd hrange
    simp [placeMinesFrom] at hrun
    subst hrun
    exact ⟨rfl, hnd, hrange⟩
  | succ k ih =>
    intro acc locs hrun hnd hrange
    simp only [placeMinesFrom] at hrun
    cases hd : drawSlot h acc.length acc fuel with
    | none => rw [hd] at hrun; simp at hrun
    | some v =>
      rw [hd] at hrun
      simp only at hrun
      obtain ⟨hv, hnc⟩ := drawSlot_some hd
      have hnd' : (acc ++ [v]).Nodup := by
        rw [List.nodup_append]
        refine ⟨hnd, List.nodup_singleton v, ?_⟩
        intro a ha hav
        simp at hav
        exact hnc (hav ▸ ha)
      have hrange' : ∀ x ∈ acc ++ [v], x < 25 := by
        intro x hx
        rcases List.mem_append.mp hx with hx | hx
        · exact hrange x hx
        · simp at hx
          subst hx
          subst hv
          exact Nat.mod_lt _ (by norm_num)
      obtain ⟨hl, hn, hr⟩ := ih hrun hnd' hrange'
      refine ⟨?_, hn, hr⟩
      simp at hl
      omega

/-- Soundness of the full placement: on success, exactly `m` distinct
locations, all in `[0, 25)`. -/
theorem placeMines_sound {h : Nat → Nat} {m fuel : Nat} {locs : List Nat}
    (hrun : placeMines h m fuel = some locs) :
    locs.length = m ∧ locs.Nodup ∧ ∀ x ∈ locs, x < 25 := by
  have := placeMinesFrom_sound
    (show placeMinesFrom h fuel m [] = some locs from hrun) (by simp) (by simp)
  simpa using this

/-- When the per-slot draws `h 0 % 25, …, h (m-1) % 25` are pairwise
distinct, every slot accepts its draw on the first iteration: one unit of
fuel per slot suffices and the run produces exactly those draws in order. -/
theorem placeMinesFrom_success {h : Nat → Nat} {m : Nat}
    (hdist : ∀ i j, j < i → i < m → h i % 25 ≠ h j % 25) :
    ∀ k i, i + k = m →
      placeMinesFrom h 1 k ((List.range i).map fun j => h j % 25)
        = some ((List.range m).map fun j => h j % 25) := by
  intro k
  induction k with
  | zero =>
    intro i hi
    have him : i = m := by omega
    subst him
    rfl
  | succ k ih =>
    intro i hi
    have hlen : ((List.range i).map fun j => h j % 25).length = i := by simp
    have hnc : ((List.range i).map fun j => h j % 25).contains (h i % 25) = false := by
      by_contra hcon
      have hmem : h i % 25 ∈ (List.range i).map fun j => h j % 25 := by
        cases hb : ((List.range i).map fun j => h j % 25).contains (h i % 25) with
        | true => simpa using hb
        | false => exact absurd hb hcon
      obtain ⟨j, hj, hje⟩ := List.mem_map.mp hmem
      exact hdist i j (List.mem_range.mp hj) (by omega) hje.symm
    have hstep : (List.range i).map (fun j => h j % 25) ++ [h i % 25]
        = (List.range (i + 1)).map fun j => h j % 25 := by
      rw [List.range_succ]
      simp
    simp only [placeMinesFrom, hlen, drawSlot_succ, hnc]
    simp only [Bool.false_eq_true, if_false, hstep]
    exact ih (i + 1) (by omega)

/-- Full placement under pairwise-distinct draws: fuel `1` suffices and the
result is the list of draws. -/
theorem placeMines_success {h : Nat → Nat} {m : Nat}
    (hdist : ∀ i j, j < i → i < m → h i % 25 ≠ h j % 25) :
    placeMines h m 1 = some ((List.range m).map fun j => h j % 25) := by
  have := placeMinesFrom_success hdist m 0 (by omega)
  simpa [placeMines] using this

/-! ### Helper lemmas about the safe-tile count -/

/-- A fresh all-false flag array contains no safe reveals. -/
theorem countSafeAux_replicate (mines : List Nat) :
    ∀ n i, countSafeAux mines (List.replicate n false) i = 0 := by
  intro n
  induction n with
  | zero => intro i; rfl
  | succ n ih => intro i; simp [List.replicate_succ, countSafeAux, ih]

/-- Setting a previously-false flag at position `t` (absolute index `i + t`)
adds one safe reveal when that index is not a mine and none when it is. -/
theorem countSafeAux_set (mines : List Nat) :
    ∀ (tiles : List Bool) (t i : Nat), t < tiles.length →
      tiles.getD t false = false →
      countSafeAux mines (tiles.set t true) i
        = countSafeAux mines tiles i + (if mines.contains (i + t) then 0 else 1) := by
  intro tiles
  induction tiles with
  | nil => intro t i ht; simp at ht
  | cons b rest ih =>
    intro t i ht hf
    cases t with
    | zero =>
      have hb : b = false := by simpa using hf
      subst hb
      show countSafeAux mines (true :: rest) i = _
      simp only [countSafeAux, Nat.add_zero]
      by_cases hc : mines.contains i = true <;> simp [hc] <;> omega
    | succ t' =>
      have ht' : t' < rest.length := by simpa using ht
      have hf' : rest.getD t' false = false := by simpa using hf
      show countSafeAux mines (b :: rest.set t' true) i = _
      simp only [countSafeAux]
      rw [ih t' (i + 1) ht' hf']
      have harith : i + 1 + t' = i + (t' + 1) := by omega
      rw [harith]
      omega

/-- Value of `countSafe` after marking a previously-unrevealed tile `t`. -/
theorem countSafe_set {tiles : List Bool} {mines : List Nat} {t : Nat}
    (ht : t < tiles.length) (hf : tiles.getD t false = false) :
    countSafe (tiles.set t true) mines
      = countSafe tiles mines + (if mines.contains t then 0 else 1) := by
  have := countSafeAux_set mines tiles t 0 ht hf
  simpa [countSafe] using this

/-- With a full-length mine list, the bounded scan is plain membership. -/
theorem isMineHit_eq_contains {locs : List Nat} {m t : Nat} (hlen : locs.length = m) :
    isMineHit locs m t = locs.contains t := by
  unfold isMineHit
  rw [← hlen, List.take_length]

/-! ### Inversion lemmas for the entry points -/

/-- Inversion of a committed `startGame` call: all three `require`s passed,
the placement loop terminated, and the post-state is the freshly written
record plus the grown pool. -/
theorem startGame_ok {h : Nat → Nat} {fuel sender stake m : Nat} {st st' : MState}
    (hrun : startGame h fuel sender stake m st = some (Except.ok st')) :
    stake ≠ 0 ∧ 1 ≤ m ∧ m ≤ 24 ∧ st.game.isActive = false ∧
    ∃ locs, placeMines h m fuel = some locs ∧
      st' = { game :=
                { player := sender, betAmount := stake, totalMines := m,
                  revealedSafeTiles := 0,
                  revealedTiles := List.replicate 25 false,
                  mineLocations := locs, isActive := true },
              pool := st.pool + stake } := by
  unfold startGame at hrun
  by_cases h0 : stake = 0
  · simp [h0] at hrun
  rw [if_neg h0] at hrun
  by_cases h1 : 1 ≤ m ∧ m ≤ 24
  · rw [if_neg (by simpa using h1)] at hrun
    by_cases h2 : st.game.isActive
    · rw [if_pos h2] at hrun
      simp at hrun
    · rw [if_neg h2] at hrun
      cases hpl : placeMines h m fuel with
      | none => rw [hpl] at hrun; simp at hrun
      | some locs =>
        rw [hpl] at hrun
        simp at hrun
        exact ⟨h0, h1.1, h1.2, by simpa using h2, locs, rfl, hrun.symm⟩
  · rw [if_pos (by simpa using h1)] at hrun
    simp at hrun

/-- Inversion of a committed `revealTile` call: the three `require`s passed
and the post-state is the one of the mine branch or of the safe branch. -/
theorem revealTile_ok {t : Nat} {st st' : MState}
    (hrun : revealTile t st = Except.ok st') :
    t < 25 ∧ st.game.isActive = true ∧
    st.game.revealedTiles.getD t false = false ∧
    ((isMineHit st.game.mineLocations st.game.totalMines t = true ∧
      st' = { st with game :=
        { st.game with revealedTiles := st.game.revealedTiles.set t true,
                       isActive := false } }) ∨
     (isMineHit st.game.mineLocations st.game.totalMines t = false ∧
      st' = { st with game :=
        { st.game with revealedTiles := st.game.revealedTiles.set t true,
                       revealedSafeTiles := st.game.revealedSafeTiles + 1 } })) := by
  unfold revealTile at hrun
  by_cases ht : t < 25
  · rw [if_neg (by simpa using ht)] at hrun
    by_cases ha : st.game.isActive
    · rw [if_neg (by simpa using ha)] at hrun
      by_cases hrev : st.game.revealedTiles.getD t false
      · rw [if_pos hrev] at hrun; simp at hrun
      · rw [if_neg hrev] at hrun
        simp only at hrun
        cases hm : isMineHit st.game.mineLocations st.game.totalMines t with
        | true =>
          rw [hm, if_pos rfl] at hrun
          simp at hrun
          exact ⟨ht, by simpa using ha, by simpa using hrev,
            Or.inl ⟨rfl, hrun.symm⟩⟩
        | false =>
          rw [hm] at hrun
          simp at hrun
          exact ⟨ht, by simpa using ha, by simpa using hrev,
            Or.inr ⟨rfl, hrun.symm⟩⟩
    · rw [if_pos (by simpa using ha)] at hrun; simp at hrun
  · rw [if_pos (by simpa using ht)] at hrun; simp at hrun

/-! ### Characterization of `cashOut` -/

/-- Solvent cash-out: the winnings computation succeeds and the pool covers
the bet plus the computed winnings, so no clamping happens and exactly
`betAmount + winnings` is paid out. -/
theorem cashOut_solvent {st : MState} {w0 : Nat}
    (ha : st.game.isActive = true) (hs : st.game.revealedSafeTiles ≠ 0)
    (hw0 : calculateWinnings st.game.betAmount st.game.totalMines
        st.game.revealedSafeTiles = Except.ok w0)
    (hsolvent : w0 + st.game.betAmount ≤ st.pool) :
    cashOut st = Except.ok
      ({ game := { st.game with isActive := false },
         pool := st.pool - (st.game.betAmount + w0) },
       st.game.betAmount + w0) := by
  unfold cashOut
  rw [if_neg (by simp [ha])]
  rw [if_neg (by simpa using hs)]
  simp only
  rw [hw0]
  simp only
  rw [if_neg (show ¬ (w0 + st.game.betAmount > st.pool ∧
      st.pool < st.game.betAmount) from by omega)]
  rw [if_neg (show ¬ (w0 + st.game.betAmount > st.pool) from by omega)]
  rw [if_neg (by omega)]

/-- Clamped cash-out: the winnings computation succeeds, the pool is short
of the theoretical payout but still covers the stake: the pool pays
everything it holds and ends at zero. -/
theorem cashOut_clamped {st : MState} {w0 : Nat}
    (ha : st.game.isActive = true) (hs : st.game.revealedSafeTiles ≠ 0)
    (hw0 : calculateWinnings st.game.betAmount st.game.totalMines
        st.game.revealedSafeTiles = Except.ok w0)
    (hclamp : st.pool < w0 + st.game.betAmount)
    (hbet : st.game.betAmount ≤ st.pool) :
    cashOut st = Except.ok
      ({ game := { st.game with isActive := false }, pool := 0 }, st.pool) := by
  unfold cashOut
  rw [if_neg (by simp [ha])]
  rw [if_neg (by simpa using hs)]
  simp only
  rw [hw0]
  simp only
  rw [if_neg (show ¬ (w0 + st.game.betAmount > st.pool ∧
      st.pool < st.game.betAmount) from by omega)]
  rw [if_pos (show w0 + st.game.betAmount > st.pool from by omega)]
  have hpay : st.game.betAmount + (st.pool - st.game.betAmount) = st.pool := by
    omega
  rw [hpay]
  rw [if_neg (lt_irrefl st.pool)]
  rw [Nat.sub_self]

/-- Insolvent cash-out: the winnings computation succeeds but the pool
cannot even cover the stake, so the checked subtraction
`sharedPoolBalance - betAmount` underflows and the whole call reverts with
an arithmetic panic. -/
theorem cashOut_insolvent {st : MState} {w0 : Nat}
    (ha : st.game.isActive = true) (hs : st.game.revealedSafeTiles ≠ 0)
    (hw0 : calculateWinnings st.game.betAmount st.game.totalMines
        st.game.revealedSafeTiles = Except.ok w0)
    (hbet : st.pool < st.game.betAmount) :
    cashOut st = Except.error "panic: arithmetic underflow" := by
  unfold cashOut
  rw [if_neg (by simp [ha])]
  rw [if_neg (by simpa using hs)]
  simp only
  rw [hw0]
  simp only
  rw [if_pos (show w0 + st.game.betAmount > st.pool ∧
      st.pool < st.game.betAmount from by omega)]

/-- Truncating `Nat` division is the rational floor of the exact quotient. -/
theorem natDiv_eq_floor (a b : Nat) : Nat.floor ((a : ℚ) / (b : ℚ)) = a / b := by
  rw [Nat.floor_div_nat ((a : ℚ)) b]
  simp

/-- C3 counterexample: at `betAmount = 100`, `totalMines = 1`,
`revealedSafeTiles = 11` the claimed formula has the value
`floor(100 * floor(24 * 11 / 25) / 100) = 10`, but the contract reverts:
the 8-bit checked multiplication `24 * 11 = 264` exceeds 255 and panics, so
the payout function does not return the formula value (or any value). -/
theorem claimC3_counterexample :
    calculateWinnings 100 1 11 = Except.error "panic: arithmetic overflow" ∧
    (25 - 1) * 11 = 264 ∧ 100 * ((25 - 1) * 11 / 25) / 100 = 10 :=
  ⟨rfl, rfl, rfl⟩

/-- C3 amended: the payout function returns `0` for `revealedSafeTiles = 0`;
for `revealedSafeTiles ≠ 0` it returns
`floor(betAmount * multiplier / 100)` with
`multiplier = floor((25 - totalMines) * revealedSafeTiles / 25)` (rational
floors of the exact quotients = truncating integer division) **provided**
the 8-bit product `(25 - totalMines) * revealedSafeTiles` is at most 255
and the 256-bit product `betAmount * multiplier` is below `2 ^ 256`;
whenever the 8-bit product exceeds 255 the call reverts with an arithmetic
panic instead. In particular `calculateWinnings 100 3 5 = ok 4` via
`multiplier = 4`. -/
theorem claimC3_payout_formula (bet m s : Nat) (hm : m ≤ 24)
    (hof : (25 - m) * s ≤ 255)
    (hbig : bet * ((25 - m) * s / 25) < 2 ^ 256) :
    (s = 0 → calculateWinnings bet m s = Except.ok 0) ∧
    (s ≠ 0 → calculateWinnings bet m s
        = Except.ok (Nat.floor (((bet : ℚ) *
            ((Nat.floor ((((25 : ℚ) - (m : ℚ)) * (s : ℚ)) / 25) : ℕ) : ℚ)) / 100))) ∧
    (∀ b mm ss : Nat, ss ≠ 0 → mm ≤ 25 → 255 < (25 - mm) * ss →
      calculateWinnings b mm ss = Except.error "panic: arithmetic overflow") ∧
    (25 - 3) * 5 / 25 = 4 ∧ calculateWinnings 100 3 5 = Except.ok 4 := by
  refine ⟨fun hs => by simp [calculateWinnings, hs], fun hs => ?_, ?_,
    by norm_num, rfl⟩
  · unfold calculateWinnings
    rw [if_neg hs, if_neg (by omega), if_neg (by omega)]
    simp only
    rw [if_neg (by omega)]
    congr 1
    have hc1 : ((25 : ℚ) - (m : ℚ)) = ((25 - m : ℕ) : ℚ) := by
      rw [Nat.cast_sub (by omega)]
      norm_num
    have hc2 : ((25 - m : ℕ) : ℚ) * (s : ℚ) = (((25 - m) * s : ℕ) : ℚ) := by
      push_cast
      ring
    rw [hc1, hc2]
    rw [show (25 : ℚ) = ((25 : ℕ) : ℚ) from by norm_num]
    rw [natDiv_eq_floor]
    have hc3 : (bet : ℚ) * (((25 - m) * s / 25 : ℕ) : ℚ)
        = ((bet * ((25 - m) * s / 25) : ℕ) : ℚ) := by
      push_cast
      ring
    rw [hc3]
    rw [show (100 : ℚ) = ((100 : ℕ) : ℚ) from by norm_num]
    rw [natDiv_eq_floor]
  · intro b mm ss hss hmm hbig'
    unfold calculateWinnings
    rw [if_neg hss, if_neg (by omega), if_pos hbig']

/-- C3 witness: the concrete scenario `bet = 100`, `mines = 3`,
`revealedSafeTiles = 5` (8-bit product 110, no overflow) gives multiplier
`4` and winnings `ok 4`. -/
theorem claimC3_payout_formula_witness :
    (3 : Nat) ≤ 24 ∧ (25 - 3) * 5 ≤ 255 ∧
    (25 - 3) * 5 / 25 = 4 ∧ calculateWinnings 100 3 5 = Except.ok 4 :=
  ⟨by decide, by decide,
    (claimC3_payout_formula 100 3 5 (by decide) (by decide) (by decide)).2.2.2⟩

/-- C8 counterexample: at `betAmount = 100`, `totalMines = 1`,
`s1 = 1 ≤ s2 = 11` the left payout is `ok 0` but the right payout is not a
value at all — the 8-bit multiplication `24 * 11 = 264` panics — so the
claimed inequality `payout(s1) ≤ payout(s2)` does not hold on the program
at this point of its stated domain. -/
theorem claimC8_counterexample :
    (1 : Nat) ≤ 1 ∧ (1 : Nat) ≤ 24 ∧ (1 : Nat) ≤ 11 ∧
    calculateWinnings 100 1 1 = Except.ok 0 ∧
    calculateWinnings 100 1 11 = Except.error "panic: arithmetic overflow" ∧
    ¬ ∃ w2, calculateWinnings 100 1 11 = Except.ok w2 := by
  refine ⟨by decide, by decide, by decide, rfl, rfl, ?_⟩
  rintro ⟨w2, hw2⟩
  rw [show calculateWinnings 100 1 11
    = Except.error "panic: arithmetic overflow" from rfl] at hw2
  exact Except.noConfusion hw2

/-- C8 amended: for fixed `betAmount` and `totalMines ∈ [1, 24]`, on the
panic-free domain — the 8-bit product for the larger reveal count at most
255 and its 256-bit product below `2 ^ 256` — both payouts are values and
the payout is non-decreasing in `revealedSafeTiles`. -/
theorem claimC8_payout_monotone (bet m s1 s2 : Nat) (hm1 : 1 ≤ m) (hm2 : m ≤ 24)
    (hs : s1 ≤ s2) (hof : (25 - m) * s2 ≤ 255)
    (hbig : bet * ((25 - m) * s2 / 25) < 2 ^ 256) :
    ∃ w1 w2, calculateWinnings bet m s1 = Except.ok w1 ∧
      calculateWinnings bet m s2 = Except.ok w2 ∧ w1 ≤ w2 := by
  have hof1 : (25 - m) * s1 ≤ 255 :=
    le_trans (Nat.mul_le_mul_left (25 - m) hs) hof
  have hmult : (25 - m) * s1 / 25 ≤ (25 - m) * s2 / 25 :=
    Nat.div_le_div_right (Nat.mul_le_mul_left (25 - m) hs)
  have hbig1 : bet * ((25 - m) * s1 / 25) < 2 ^ 256 :=
    lt_of_le_of_lt (Nat.mul_le_mul_left bet hmult) hbig
  by_cases hz2 : s2 = 0
  · have hz1 : s1 = 0 := by omega
    exact ⟨0, 0, by simp [calculateWinnings, hz1],
      by simp [calculateWinnings, hz2], le_refl 0⟩
  · by_cases hz1 : s1 = 0
    · refine ⟨0, bet * ((25 - m) * s2 / 25) / 100,
        by simp [calculateWinnings, hz1], ?_, Nat.zero_le _⟩
      unfold calculateWinnings
      rw [if_neg hz2, if_neg (by omega), if_neg (by omega)]
      simp only
      rw [if_neg (by omega)]
    · refine ⟨bet * ((25 - m) * s1 / 25) / 100,
        bet * ((25 - m) * s2 / 25) / 100, ?_, ?_, ?_⟩
      · unfold calculateWinnings
        rw [if_neg hz1, if_neg (by omega), if_neg (by omega)]
        simp only
        rw [if_neg (by omega)]
      · unfold calculateWinnings
        rw [if_neg hz2, if_neg (by omega), if_neg (by omega)]
        simp only
        rw [if_neg (by omega)]
      · exact Nat.div_le_div_right (Nat.mul_le_mul_left bet hmult)

/-- C8 witness: monotonicity at `bet = 100`, `m = 3`, `s1 = 2 ≤ s2 = 5`
(8-bit product 110, 256-bit product 400: panic-free). -/
theorem claimC8_payout_monotone_witness :
    (2 : Nat) ≤ 5 ∧ (25 - 3) * 5 ≤ 255 ∧
    (∃ w1 w2, calculateWinnings 100 3 2 = Except.ok w1 ∧
      calculateWinnings 100 3 5 = Except.ok w2 ∧ w1 ≤ w2) :=
  ⟨by decide, by decide,
    claimC8_payout_monotone 100 3 2 5 (by decide) (by decide) (by decide)
      (by decide) (by decide)⟩

/-- C9: `withdrawHouseFunds` (the drain) has no precondition: for every
state it pays the entire tracked pool balance to the caller, zeroes the
pool, and leaves the caller's game record untouched. -/
theorem claimC9_drain_unrestricted (st : MState) :
    (withdrawHouseFunds st).2 = st.pool ∧
    (withdrawHouseFunds st).1.pool = 0 ∧
    (withdrawHouseFunds st).1.game = st.game :=
  ⟨rfl, rfl, rfl⟩

/-- C10: whenever `(25 - totalMines) * revealedSafeTiles < 25` the
multiplier truncates to `0` and the winnings are `ok 0` despite
`revealedSafeTiles ≥ 1` (the 8-bit product is below 25 ≤ 255 and the
256-bit product is 0, so no panic is possible there); a cash-out in such a
game (with the pool covering the stake) transfers exactly the stake back.
In particular `totalMines = 24` with its single possible safe reveal pays
zero winnings. -/
theorem claimC10_zero_multiplier (bet m s : Nat) (hm1 : 1 ≤ m) (hm2 : m ≤ 24)
    (hs : 1 ≤ s) (hlt : (25 - m) * s < 25) :
    calculateWinnings bet m s = Except.ok 0 ∧
    calculateWinnings bet 24 1 = Except.ok 0 ∧
    (∀ st : MState, st.game.betAmount = bet → st.game.totalMines = m →
      st.game.revealedSafeTiles = s → st.game.isActive = true →
      bet ≤ st.pool →
      cashOut st = Except.ok
        ({ game := { st.game with isActive := false }, pool := st.pool - bet },
         bet)) := by
  have hz : ∀ b mm ss, 1 ≤ ss → mm ≤ 25 → (25 - mm) * ss < 25 →
      calculateWinnings b mm ss = Except.ok 0 := by
    intro b mm ss hss hmm hltm
    unfold calculateWinnings
    rw [if_neg (by omega), if_neg (by omega), if_neg (by omega)]
    simp only
    rw [Nat.div_eq_of_lt hltm]
    simp
  refine ⟨hz bet m s hs (by omega) hlt,
    hz bet 24 1 (by decide) (by decide) (by decide), ?_⟩
  intro st hb hmm hsg ha hpool
  have hz' : calculateWinnings st.game.betAmount st.game.totalMines
      st.game.revealedSafeTiles = Except.ok 0 := by
    rw [hb, hmm, hsg]
    exact hz bet m s hs (by omega) hlt
  have := cashOut_solvent ha (by omega) hz' (by omega)
  rw [this, hb]
  simp

/-- C10 witness: `bet = 100`, `totalMines = 24`, one safe reveal, pool
`150`: winnings are `ok 0` and cash-out pays back exactly the 100 stake. -/
theorem claimC10_zero_multiplier_witness :
    calculateWinnings 100 24 1 = Except.ok 0 ∧
    cashOut { game := { player := 7, betAmount := 100, totalMines := 24,
                        revealedSafeTiles := 1,
                        revealedTiles := List.replicate 25 false,
                        mineLocations := [], isActive := true },
              pool := 150 }
      = Except.ok
        ({ game := { player := 7, betAmount := 100, totalMines := 24,
                     revealedSafeTiles := 1,
                     revealedTiles := List.replicate 25 false,
                     mineLocations := [], isActive := false },
           pool := 50 }, 100) := by
  have h := claimC10_zero_multiplier 100 24 1 (by decide) (by decide) (by decide)
    (by decide)
  refine ⟨h.2.1, ?_⟩
  have h2 := h.2.2 ⟨⟨7, 100, 24, 1, List.replicate 25 false, [], true⟩, 150⟩
    rfl rfl rfl rfl (by decide)
  simpa using h2

/-- C4: a valid start call whose placement loop terminates commits a
post-state with `isActive = true`, zero safe-tile counter, all 25 reveal
flags false, `betAmount` equal to the stake, exactly `totalMines` distinct
mine locations in `[0, 25)`, and the pool grown by exactly the stake. -/
theorem claimC4_start_poststate (h : Nat → Nat) (fuel sender stake m : Nat)
    (st : MState) (locs : List Nat)
    (hstake : stake ≠ 0) (hm1 : 1 ≤ m) (hm2 : m ≤ 24)
    (hact : st.game.isActive = false)
    (hpl : placeMines h m fuel = some locs) :
    ∃ st', startGame h fuel sender stake m st = some (Except.ok st') ∧
      st'.game.isActive = true ∧ st'.game.revealedSafeTiles = 0 ∧
      st'.game.revealedTiles = List.replicate 25 false ∧
      st'.game.betAmount = stake ∧ st'.game.totalMines = m ∧
      st'.game.mineLocations.length = m ∧ st'.game.mineLocations.Nodup ∧
      (∀ x ∈ st'.game.mineLocations, x < 25) ∧
      st'.pool = st.pool + stake := by
  obtain ⟨hlen, hnd, hrange⟩ := placeMines_sound hpl
  refine ⟨⟨⟨sender, stake, m, 0, List.replicate 25 false, locs, true⟩,
    st.pool + stake⟩, ?_, rfl, rfl, rfl, rfl, rfl, hlen, hnd, hrange, rfl⟩
  unfold startGame
  rw [if_neg hstake]
  rw [if_neg (not_not_intro ⟨hm1, hm2⟩)]
  rw [if_neg (by simp [hact])]
  rw [hpl]

/-- C4 witness: a start with stake 100 and 3 mines from the fresh state,
with the identity hash (whose three draws 0, 1, 2 are distinct). -/
theorem claimC4_start_poststate_witness :
    ∃ st', startGame (fun i => i) 1 7 100 3 ⟨Game.initial, 0⟩
        = some (Except.ok st') ∧
      st'.game.isActive = true ∧ st'.game.revealedSafeTiles = 0 ∧
      st'.game.revealedTiles = List.replicate 25 false ∧
      st'.game.betAmount = 100 ∧ st'.game.totalMines = 3 ∧
      st'.game.mineLocations.length = 3 ∧ st'.game.mineLocations.Nodup ∧
      (∀ x ∈ st'.game.mineLocations, x < 25) ∧
      st'.pool = 0 + 100 :=
  claimC4_start_poststate (fun i => i) 1 7 100 3 ⟨Game.initial, 0⟩ [0, 1, 2]
    (by decide) (by decide) (by decide) rfl (by decide)

/-- Reading back a just-set flag (within bounds) yields `true`. -/
theorem getD_set_self : ∀ (l : List Bool) (t : Nat), t < l.length →
    (l.set t true).getD t false = true := by
  intro l
  induction l with
  | nil => intro t ht; simp at ht
  | cons b rest ih =>
    intro t ht
    cases t with
    | zero => rfl
    | succ t' => exact ih t' (by simpa using ht)

/-- C5: every precondition violation of `startGame`, `revealTile` and
`cashOut` reverts the whole call with its specific `require` reason (so no
state is mutated); in particular a second reveal of the same tile index is
always rejected. -/
theorem claimC5_reject_no_mutation :
    (∀ (h : Nat → Nat) (fuel sender m : Nat) (st : MState),
      startGame h fuel sender 0 m st
        = some (Except.error "Bet amount must be greater than 0")) ∧
    (∀ (h : Nat → Nat) (fuel sender stake m : Nat) (st : MState),
      stake ≠ 0 → ¬ (1 ≤ m ∧ m ≤ 24) →
      startGame h fuel sender stake m st
        = some (Except.error "Mines must be between 1 and 24")) ∧
    (∀ (h : Nat → Nat) (fuel sender stake m : Nat) (st : MState),
      stake ≠ 0 → 1 ≤ m → m ≤ 24 → st.game.isActive = true →
      startGame h fuel sender stake m st
        = some (Except.error "Player already has an active game")) ∧
    (∀ (t : Nat) (st : MState), 25 ≤ t →
      revealTile t st = Except.error "Invalid tile index") ∧
    (∀ (t : Nat) (st : MState), t < 25 → st.game.isActive = false →
      revealTile t st = Except.error "No active game") ∧
    (∀ (t : Nat) (st : MState), t < 25 → st.game.isActive = true →
      st.game.revealedTiles.getD t false = true →
      revealTile t st = Except.error "Tile already revealed") ∧
    (∀ st : MState, st.game.isActive = false →
      cashOut st = Except.error "No active game") ∧
    (∀ st : MState, st.game.isActive = true → st.game.revealedSafeTiles = 0 →
      cashOut st = Except.error "Must reveal at least one safe tile") ∧
    (∀ (t : Nat) (st st' : MState), st.game.revealedTiles.length = 25 →
      revealTile t st = Except.ok st' →
      ∃ msg, revealTile t st' = Except.error msg) := by
  refine ⟨?_, ?_, ?_, ?_, ?_, ?_, ?_, ?_, ?_⟩
  · intro h fuel sender m st
    unfold startGame
    rw [if_pos rfl]
  · intro h fuel sender stake m st hstake hm
    unfold startGame
    rw [if_neg hstake, if_pos hm]
  · intro h fuel sender stake m st hstake hm1 hm2 hact
    unfold startGame
    rw [if_neg hstake, if_neg (not_not_intro ⟨hm1, hm2⟩), if_pos hact]
  · intro t st ht
    unfold revealTile
    rw [if_pos (by omega)]
  · intro t st ht hact
    unfold revealTile
    rw [if_neg (not_not_intro ht), if_pos (by simp [hact])]
  · intro t st ht hact hrev
    unfold revealTile
    rw [if_neg (not_not_intro ht), if_neg (by simp [hact]), if_pos hrev]
  · intro st hact
    unfold cashOut
    rw [if_pos (by simp [hact])]
  · intro st hact hzero
    unfold cashOut
    rw [if_neg (by simp [hact]), if_pos hzero]
  · intro t st st' hlen hrun
    obtain ⟨ht, hact, hrev, hcase⟩ := revealTile_ok hrun
    rcases hcase with ⟨hmine, hst'⟩ | ⟨hmine, hst'⟩
    · refine ⟨"No active game", ?_⟩
      unfold revealTile
      rw [if_neg (not_not_intro ht), if_pos (by rw [hst']; simp)]
    · refine ⟨"Tile already revealed", ?_⟩
      have hset : st'.game.revealedTiles.getD t false = true := by
        rw [hst']
        exact getD_set_self st.game.revealedTiles t (by omega)
      unfold revealTile
      rw [if_neg (not_not_intro ht), if_neg (by rw [hst']; simp [hact]),
        if_pos hset]

/-- C5 witness: concrete rejected calls — zero stake at start, tile index 30
at reveal, cash-out with no safe tile revealed, and a double reveal of tile
4 (rejected on the second attempt). -/
theorem claimC5_reject_no_mutation_witness :
    startGame (fun i => i) 1 7 0 3 ⟨Game.initial, 0⟩
      = some (Except.error "Bet amount must be greater than 0") ∧
    revealTile 30 ⟨⟨7, 100, 3, 0, List.replicate 25 false, [0, 1, 2], true⟩, 100⟩
      = Except.error "Invalid tile index" ∧
    cashOut ⟨⟨7, 100, 3, 0, List.replicate 25 false, [0, 1, 2], true⟩, 100⟩
      = Except.error "Must reveal at least one safe tile" ∧
    (∃ msg, revealTile 4
      ⟨⟨7, 100, 3, 1, (List.replicate 25 false).set 4 true, [0, 1, 2], true⟩, 100⟩
      = Except.error msg) :=
  ⟨claimC5_reject_no_mutation.1 (fun i => i) 1 7 3 ⟨Game.initial, 0⟩,
   claimC5_reject_no_mutation.2.2.2.1 30
     ⟨⟨7, 100, 3, 0, List.replicate 25 false, [0, 1, 2], true⟩, 100⟩ (by decide),
   claimC5_reject_no_mutation.2.2.2.2.2.2.2.1
     ⟨⟨7, 100, 3, 0, List.replicate 25 false, [0, 1, 2], true⟩, 100⟩ rfl rfl,
   claimC5_reject_no_mutation.2.2.2.2.2.2.2.2 4
     ⟨⟨7, 100, 3, 0, List.replicate 25 false, [0, 1, 2], true⟩, 100⟩
     ⟨⟨7, 100, 3, 1, (List.replicate 25 false).set 4 true, [0, 1, 2], true⟩, 100⟩
     (by decide) rfl⟩

/-- C6: the invariant `revealedSafeTiles = countSafe revealedTiles
mineLocations` (counter = number of set flags at non-mine indices) holds
after every committed start and is preserved by every committed reveal; a
safe reveal sets one new flag and increments the counter by exactly 1, a
mine reveal sets the flag and leaves the counter unchanged. -/
theorem claimC6_counter_invariant :
    (∀ (h : Nat → Nat) (fuel sender stake m : Nat) (st st' : MState),
      startGame h fuel sender stake m st = some (Except.ok st') →
      GameInv st'.game) ∧
    (∀ (t : Nat) (st st' : MState), GameInv st.game →
      revealTile t st = Except.ok st' →
      GameInv st'.game ∧
      st'.game.revealedTiles = st.game.revealedTiles.set t true ∧
      (t ∈ st.game.mineLocations →
        st'.game.revealedSafeTiles = st.game.revealedSafeTiles) ∧
      (t ∉ st.game.mineLocations →
        st'.game.revealedSafeTiles = st.game.revealedSafeTiles + 1)) := by
  constructor
  · intro h fuel sender stake m st st' hrun
    obtain ⟨-, -, -, -, locs, hpl, hst'⟩ := startGame_ok hrun
    obtain ⟨hlen, -, -⟩ := placeMines_sound hpl
    rw [hst']
    refine ⟨?_, by simp, by simpa using hlen⟩
    show 0 = countSafe (List.replicate 25 false) locs
    rw [countSafe]
    rw [countSafeAux_replicate locs 25 0]
  · intro t st st' hinv hrun
    obtain ⟨hcount, hlen25, hlenm⟩ := hinv
    obtain ⟨ht, hact, hrev, hcase⟩ := revealTile_ok hrun
    have htlt : t < st.game.revealedTiles.length := by omega
    have hmem : isMineHit st.game.mineLocations st.game.totalMines t
        = st.game.mineLocations.contains t := isMineHit_eq_contains hlenm
    have hcs : countSafe (st.game.revealedTiles.set t true) st.game.mineLocations
        = countSafe st.game.revealedTiles st.game.mineLocations
          + (if st.game.mineLocations.contains t then 0 else 1) :=
      countSafe_set htlt hrev
    rcases hcase with ⟨hmine, hst'⟩ | ⟨hmine, hst'⟩
    · have hcont : st.game.mineLocations.contains t = true := by
        rw [← hmem]; exact hmine
      have htmem : t ∈ st.game.mineLocations := by simpa using hcont
      rw [hst']
      refine ⟨⟨?_, by simpa using hlen25, hlenm⟩, rfl, fun _ => rfl,
        fun hnot => absurd htmem hnot⟩
      show st.game.revealedSafeTiles
          = countSafe (st.game.revealedTiles.set t true) st.game.mineLocations
      rw [hcs, hcont, if_pos rfl, hcount]
      omega
    · have hcont : st.game.mineLocations.contains t = false := by
        rw [← hmem]; exact hmine
      have htmem : t ∉ st.game.mineLocations := by simpa using hcont
      rw [hst']
      refine ⟨⟨?_, by simpa using hlen25, hlenm⟩, rfl,
        fun hmem' => absurd hmem' htmem, fun _ => rfl⟩
      show st.game.revealedSafeTiles + 1
          = countSafe (st.game.revealedTiles.set t true) st.game.mineLocations
      rw [hcs, hcont, hcount]
      simp

/-- C6 witness: the invariant after a concrete start (identity hash) and
after a concrete safe reveal of tile 4 with mines at 0, 1, 2. -/
theorem claimC6_counter_invariant_witness :
    GameInv (⟨7, 100, 3, 1, (List.replicate 25 false).set 4 true,
      [0, 1, 2], true⟩ : Game) ∧
    ((4 : Nat) ∉ ([0, 1, 2] : List Nat) → (1 : Nat) = 0 + 1) := by
  have h2 := claimC6_counter_invariant.2 4
    ⟨⟨7, 100, 3, 0, List.replicate 25 false, [0, 1, 2], true⟩, 100⟩
    ⟨⟨7, 100, 3, 1, (List.replicate 25 false).set 4 true, [0, 1, 2], true⟩, 100⟩
    ⟨by decide, by decide, by decide⟩ rfl
  exact ⟨h2.1, fun hmem => h2.2.2.2 hmem⟩

/-- C7: a committed reveal of a mine deactivates the game and leaves the
counter, bet, mine data and pool unchanged (the bet stays absorbed in the
pool); a committed reveal of a non-mine tile increments the counter by 1 and
leaves activity and pool unchanged. -/
theorem claimC7_reveal_frame (t : Nat) (st st' : MState)
    (hlenm : st.game.mineLocations.length = st.game.totalMines)
    (hrun : revealTile t st = Except.ok st') :
    (t ∈ st.game.mineLocations →
      st'.game.isActive = false ∧
      st'.game.revealedSafeTiles = st.game.revealedSafeTiles) ∧
    (t ∉ st.game.mineLocations →
      st'.game.isActive = st.game.isActive ∧
      st'.game.revealedSafeTiles = st.game.revealedSafeTiles + 1) ∧
    st'.game.betAmount = st.game.betAmount ∧
    st'.game.totalMines = st.game.totalMines ∧
    st'.game.mineLocations = st.game.mineLocations ∧
    st'.pool = st.pool := by
  obtain ⟨ht, hact, hrev, hcase⟩ := revealTile_ok hrun
  have hmem : isMineHit st.game.mineLocations st.game.totalMines t
      = st.game.mineLocations.contains t := isMineHit_eq_contains hlenm
  rcases hcase with ⟨hmine, hst'⟩ | ⟨hmine, hst'⟩
  · have htmem : t ∈ st.game.mineLocations := by
      have := hmem ▸ hmine
      simpa using this
    rw [hst']
    exact ⟨fun _ => ⟨rfl, rfl⟩, fun hnot => absurd htmem hnot, rfl, rfl, rfl, rfl⟩
  · have htmem : t ∉ st.game.mineLocations := by
      have := hmem ▸ hmine
      simpa using this
    rw [hst']
    exact ⟨fun hmem' => absurd hmem' htmem,
      fun _ => ⟨rfl, rfl⟩, rfl, rfl, rfl, rfl⟩

/-- C7 witness: revealing mine tile 0 (mines at 0, 1, 2) deactivates the
game without touching counter or pool; conclusions instantiated at that
concrete reveal. -/
theorem claimC7_reveal_frame_witness :
    ((0 : Nat) ∈ ([0, 1, 2] : List Nat) →
      (false : Bool) = false ∧ (0 : Nat) = 0) ∧
    (100 : Nat) = 100 := by
  have h := claimC7_reveal_frame 0
    ⟨⟨7, 100, 3, 0, List.replicate 25 false, [0, 1, 2], true⟩, 100⟩
    ⟨⟨7, 100, 3, 0, (List.replicate 25 false).set 0 true, [0, 1, 2], false⟩, 100⟩
    (by decide) rfl
  exact ⟨fun hmem => h.1 hmem, h.2.2.2.2.2⟩

/-- C1 counterexample (Scenario E of the spec): pool 50, bet 100, one safe
tile revealed with one mine. The computed winnings are 0, the theoretical
payout 100 exceeds the pool, and the clamp `sharedPoolBalance - betAmount`
is the checked subtraction `50 - 100`: under Solidity 0.8 semantics the
whole cash-out reverts with an arithmetic panic instead of completing with
winnings clamped to 0. -/
theorem claimC1_counterexample :
    cashOut ⟨⟨7, 100, 1, 1, (List.replicate 25 false).set 2 true, [0], true⟩, 50⟩
      = Except.error "panic: arithmetic underflow" ∧
    ¬ ∃ (st' : MState) (paid : Nat),
      cashOut ⟨⟨7, 100, 1, 1, (List.replicate 25 false).set 2 true, [0], true⟩, 50⟩
        = Except.ok (st', paid) := by
  refine ⟨rfl, ?_⟩
  rintro ⟨st', paid, hok⟩
  rw [show cashOut ⟨⟨7, 100, 1, 1, (List.replicate 25 false).set 2 true, [0],
    true⟩, 50⟩ = Except.error "panic: arithmetic underflow" from rfl] at hok
  exact Except.noConfusion hok

/-- C1 amended: when the winnings computation itself succeeds (returning
`w0`, i.e. no 8-bit panic inside `calculateWinnings`) and the theoretical
payout `w0 + betAmount` exceeds the pool, the clamp applies as long as the
pool still covers the stake — the game is closed, the entire pool is
transferred (realized winnings `poolBalance - betAmount`) and the pool ends
at zero; but when the pool cannot even cover the stake, the checked
subtraction underflows and the whole cash-out reverts (no state change, no
payout) rather than completing with winnings floored at zero. -/
theorem claimC1_clamp_amended (st : MState) (w0 : Nat)
    (ha : st.game.isActive = true) (hs : st.game.revealedSafeTiles ≠ 0)
    (hw0 : calculateWinnings st.game.betAmount st.game.totalMines
        st.game.revealedSafeTiles = Except.ok w0)
    (hclamp : st.pool < w0 + st.game.betAmount) :
    (st.game.betAmount ≤ st.pool →
      cashOut st = Except.ok
        ({ game := { st.game with isActive := false }, pool := 0 }, st.pool)) ∧
    (st.pool < st.game.betAmount →
      cashOut st = Except.error "panic: arithmetic underflow") :=
  ⟨fun hbet => cashOut_clamped ha hs hw0 hclamp hbet,
   fun hbet => cashOut_insolvent ha hs hw0 hbet⟩

/-- C1 amended witness: bet 1000, mines 3, five safe reveals (computed
winnings `ok 40`; 8-bit product 110, no panic), pool 1020 < 1040: the clamp
fires, the player receives the whole pool 1020 and the pool is zeroed. -/
theorem claimC1_clamp_amended_witness :
    cashOut ⟨⟨7, 1000, 3, 5, (List.replicate 25 false).set 4 true,
        [0, 1, 2], true⟩, 1020⟩
      = Except.ok
        (⟨⟨7, 1000, 3, 5, (List.replicate 25 false).set 4 true,
          [0, 1, 2], false⟩, 0⟩, 1020) := by
  have h := (claimC1_clamp_amended
    ⟨⟨7, 1000, 3, 5, (List.replicate 25 false).set 4 true, [0, 1, 2], true⟩, 1020⟩
    40 rfl (by decide) rfl (by decide)).1 (by decide)
  simpa using h

/-- C2 counterexample: the hash value drawn inside the rejection loop does
not change between retries, so a collision retries forever. With the
(abstracted) hash constant 0 and `totalMines = 2` — a valid mine count —
slot 1 redraws 0 endlessly and the placement loop never terminates. -/
theorem claimC2_counterexample :
    (1 : Nat) ≤ 2 ∧ (2 : Nat) ≤ 24 ∧ ¬ PlacementTerminates (fun _ => 0) 2 := by
  refine ⟨by decide, by decide, ?_⟩
  have key : ∀ f, placeMinesFrom (fun _ => 0) f 1 [0] = none := by
    intro f
    simp only [placeMinesFrom]
    rw [show (([0] : List Nat)).length = 1 from rfl]
    rw [drawSlot_none (show ([0] : List Nat).contains ((fun _ : Nat => 0) 1 % 25)
      = true from rfl) f]
  have hnone : ∀ f, placeMines (fun _ => 0) 2 f = none := by
    intro f
    cases f with
    | zero => rfl
    | succ f' =>
      show placeMinesFrom (fun _ => 0) (f' + 1) 2 [] = none
      simp only [placeMinesFrom]
      rw [show (([] : List Nat)).length = 0 from rfl]
      rw [show drawSlot (fun _ => 0) 0 [] (f' + 1) = some 0 from rfl]
      exact key (f' + 1)
  rintro ⟨fuel, hsome⟩
  rw [hnone fuel] at hsome
  exact Bool.false_ne_true hsome

/-- C2 amended: the placement loop terminates exactly when the per-slot
draws `h i % 25` for `i < totalMines` are pairwise distinct (any collision
repeats the identical draw forever); in that case one iteration per slot
suffices and the loop yields `totalMines` distinct indices in `[0, 25)`. -/
theorem claimC2_placement_amended (h : Nat → Nat) (m : Nat)
    (hm1 : 1 ≤ m) (hm2 : m ≤ 24) :
    (PlacementTerminates h m ↔ ∀ i j, j < i → i < m → h i % 25 ≠ h j % 25) ∧
    ((∀ i j, j < i → i < m → h i % 25 ≠ h j % 25) →
      ∃ locs, placeMines h m 1 = some locs ∧ locs.length = m ∧ locs.Nodup ∧
        ∀ x ∈ locs, x < 25) := by
  have hsucc : (∀ i j, j < i → i < m → h i % 25 ≠ h j % 25) →
      ∃ locs, placeMines h m 1 = some locs ∧ locs.length = m ∧ locs.Nodup ∧
        ∀ x ∈ locs, x < 25 := by
    intro hdist
    obtain ⟨hl, hn, hr⟩ := placeMines_sound (placeMines_success hdist)
    exact ⟨_, placeMines_success hdist, hl, hn, hr⟩
  refine ⟨⟨?_, fun hdist => ?_⟩, hsucc⟩
  · rintro ⟨fuel, hsome⟩
    obtain ⟨locs, hlocs⟩ := Option.isSome_iff_exists.mp hsome
    have hshape : locs = (List.range m).map fun j => h j % 25 := by
      have := placeMinesFrom_shape
        (show placeMinesFrom h fuel m [] = some locs from hlocs)
      simpa using this
    obtain ⟨-, hnd, -⟩ := placeMines_sound hlocs
    rw [hshape] at hnd
    intro i j hj hi heq
    have hij := List.inj_on_of_nodup_map hnd
      (List.mem_range.mpr hi) (List.mem_range.mpr (by omega)) heq
    omega
  · obtain ⟨locs, hpl, -, -, -⟩ := hsucc hdist
    exact ⟨1, by rw [hpl]; rfl⟩

/-- C2 amended witness: with the identity hash and 3 mines the draws 0, 1, 2
are pairwise distinct, so placement terminates. -/
theorem claimC2_placement_amended_witness :
    (1 : Nat) ≤ 3 ∧ (3 : Nat) ≤ 24 ∧ PlacementTerminates (fun i => i) 3 := by
  refine ⟨by decide, by decide, ?_⟩
  have hdist : ∀ i j, j < i → i < 3 → (fun i : Nat => i) i % 25
      ≠ (fun i : Nat => i) j % 25 := by
    intro i j hj hi
    simp only
    rw [Nat.mod_eq_of_lt (by omega), Nat.mod_eq_of_lt (by omega)]
    omega
  exact (claimC2_placement_amended (fun i => i) 3 (by decide) (by decide)).1.mpr
    hdist
